import Mathlib

/-!
Verification of `cli/src/semdep/parsers/pom_tree.py`: the parser that turns the
textual output of `mvn dependency:tree` into a flat list of found dependencies.

The source builds its grammar from the `parsy` combinator library plus helper
combinators from `semdep/parsers/util.py` (`upto`, `consume_line`, `mark_line`,
`safe_path_parse`).  We embed the parsers shallowly: a parser is a function from
a parse state (current 1-based line number together with the remaining input)
to an optional value-and-state.  This is exactly the observable behaviour of a
parsy parser over a fixed stream: parsy parsers are pure functions of the
stream index, alternation backtracks to the original index on failure, and the
line number reported by `line_info` is determined by the number of newline
characters before the current index.
-/

set_option maxRecDepth 4000

/-- The parse state: `line` is the current 1-based line number (one plus the
number of newline characters already consumed), `rest` is the remaining
input. -/
structure PState where
  line : Nat
  rest : List Char
  deriving DecidableEq, Repr

/-- A parsy-style parser: deterministic, returns the value and the state after
the consumed prefix, or `none` on failure (parsy raises `ParseError`). -/
def Parser (α : Type) : Type := PState → Option (α × PState)

/-- parsy `success(a)`: consume nothing, return `a`. -/
def psuccess (a : α) : Parser α := fun st => some (a, st)

/-- parsy `.bind`. -/
def pbind (p : Parser α) (f : α → Parser β) : Parser β := fun st =>
  match p st with
  | none => none
  | some (a, st2) => f a st2

/-- parsy `.map`. -/
def pmap (f : α → β) (p : Parser α) : Parser β := fun st =>
  match p st with
  | none => none
  | some (a, st2) => some (f a, st2)

/-- parsy `>>`: sequence, keep the right value. -/
def pseqR (p : Parser α) (q : Parser β) : Parser β :=
  pbind p (fun _ => q)

/-- parsy `<<`: sequence, keep the left value. -/
def pseqL (p : Parser α) (q : Parser β) : Parser α :=
  pbind p (fun a => pmap (fun _ => a) q)

/-- parsy `|`: try the left parser; on failure backtrack fully and try the
right one from the same position. -/
def palt (p q : Parser α) : Parser α := fun st =>
  match p st with
  | some r => some r
  | none => q st

/-- parsy `string(s)`: match the literal `s` and return it.  The line counter
advances by the number of newline characters inside `s`. -/
def pstring (s : List Char) : Parser (List Char) := fun st =>
  if st.rest.take s.length = s then
    some (s, ⟨st.line + s.count '\n', st.rest.drop s.length⟩)
  else none

/-- parsy `.optional()`: one try, `none` value on failure, no consumption. -/
def poptional (p : Parser α) : Parser (Option α) :=
  palt (pmap (fun a => some a) p) (psuccess none)

/-- Fuel-indexed iteration for parsy `.many()`: repeat `p` until it fails,
collecting the results.  Every parser iterated in this development consumes at
least one character on success, so fuel `rest.length + 1` is never
exhausted. -/
def pmanyAux (p : Parser α) : Nat → Parser (List α)
  | 0 => fun st => some ([], st)
  | n + 1 => fun st =>
    match p st with
    | none => some ([], st)
    | some (a, st2) =>
      match pmanyAux p n st2 with
      | none => none
      | some (as, st3) => some (a :: as, st3)

/-- parsy `.many()`. -/
def pmany (p : Parser α) : Parser (List α) := fun st =>
  pmanyAux p (st.rest.length + 1) st

/-- parsy `.at_least(1)` (= `times(1) + many()`): one or more repetitions. -/
def patLeast1 (p : Parser α) : Parser (List α) :=
  pbind p (fun a => pmap (fun as => a :: as) (pmany p))

/-- parsy `p.sep_by(sep)` restricted to at least one item:
`p` followed by many `(sep >> p)`. -/
def psepBy1 (p : Parser α) (sep : Parser σ) : Parser (List α) :=
  pbind p (fun a => pmap (fun as => a :: as) (pmany (pseqR sep p)))

/-- parsy `p.sep_by(sep)` (minimum zero): one-or-more, or the empty list. -/
def psepBy (p : Parser α) (sep : Parser σ) : Parser (List α) :=
  palt (psepBy1 p sep) (psuccess [])

/-- parsy `.parse`: run from line 1 on the whole input and require that the
whole input is consumed (`self << eof`); `none` models the raised
`ParseError`. -/
def runParser (p : Parser α) (s : List Char) : Option α :=
  match p ⟨1, s⟩ with
  | none => none
  | some (a, st) => if st.rest = [] then some a else none

/-! ### Combinators from `semdep/parsers/util.py` (not part of the sources) -/

/-- Characters allowed inside one colon-delimited coordinate field: anything
except the colon delimiter and the end of the line. -/
def sepPred (c : Char) : Bool := !(c = ':') && !(c = '\n')

/-- Modelled from the spec: `upto(":", consume_other=True)` from
`semdep/parsers/util.py` is not in the sources.  Per §4.2 the coordinate
extractor consumes each of the four leading fields together with its
terminating colon, never reading past the end of the line: the parser returns
the maximal run of non-colon characters before the end of the line and then
consumes the colon delimiter itself, failing when no colon delimiter
follows. -/
def upto_colon : Parser (List Char) := fun st =>
  match st.rest.dropWhile sepPred with
  | ':' :: r => some (st.rest.takeWhile sepPred, ⟨st.line, r⟩)
  | _ => none

/-- Modelled from the spec: `consume_line` from `semdep/parsers/util.py` is not
in the sources.  Per §4.1/§4.2 it consumes the remainder of the line — the
maximal (possibly empty) run of non-newline characters — and always
succeeds. -/
def consume_line : Parser (List Char) := fun st =>
  some (st.rest.takeWhile (fun c => !(c = '\n')),
        ⟨st.line, st.rest.dropWhile (fun c => !(c = '\n'))⟩)

/-- Modelled from the spec: `mark_line` from `semdep/parsers/util.py` is not in
the sources.  Per §4.1 it pairs a parser's result with the 1-based line number
of the position where that parser started. -/
def mark_line (p : Parser α) : Parser (Nat × α) := fun st =>
  match p st with
  | none => none
  | some (a, st2) => some ((st.line, a), st2)

/-! ### Output data model (`semgrep_output_v1`) -/

/-- `Transitivity`: `Direct()` or `Transitive()`. -/
inductive Transitivity where
  | direct : Transitivity
  | transitive : Transitivity
  deriving DecidableEq, Repr

/-- `Ecosystem`: only `Maven()` occurs in this parser. -/
inductive Ecosystem where
  | maven : Ecosystem
  deriving DecidableEq, Repr

/-- `FoundDependency` with the fields populated by `parse_pom_tree`.
`allowed_hashes` is a mapping from hash names to hash values, modelled as an
association list. -/
structure FoundDependency where
  package : List Char
  version : List Char
  ecosystem : Ecosystem
  allowed_hashes : List (List Char × List (List Char))
  transitivity : Transitivity
  line_number : Nat
  deriving DecidableEq, Repr

/-! ### The grammar of `pom_tree.py` -/

/-- `dep`: four `upto(":", consume_other=True)` in sequence — binding the
second field as `package` and the fourth as `version` — then `consume_line`
for the trailing scope/classifier tail.  Verbatim from the source:
`upto(":") >> upto(":").bind(lambda package: upto(":") >>
upto(":").bind(lambda version: success((package, version)) <<
consume_line))`. -/
def dep : Parser (List Char × List Char) :=
  pseqR upto_colon (pbind upto_colon (fun package =>
    pseqR upto_colon (pbind upto_colon (fun version =>
      pseqL (psuccess (package, version)) consume_line))))

/-- One indentation marker: `string("|  ") | string("   ")`. -/
def markerP : Parser (List Char) :=
  palt (pstring "|  ".toList) (pstring "   ".toList)

/-- The depth prefix: `(string("|  ") | string("   ")).at_least(1) |
success([])`. -/
def depthP : Parser (List (List Char)) :=
  palt (patLeast1 markerP) (psuccess [])

/-- The branch glyph: `string("+- ") | string("\- ")`. -/
def glyphP : Parser (List Char) :=
  palt (pstring "+- ".toList) (pstring "\\- ".toList)

/-- `tree_line`: `mark_line(depth.bind(lambda depth: glyph >> dep.map(lambda
d: (Transitive() if len(depth) > 0 else Direct(), d[0], d[1]))))`. -/
def tree_line : Parser (Nat × Transitivity × List Char × List Char) :=
  mark_line
    (pbind depthP (fun depth =>
      pseqR glyphP
        (pmap (fun d =>
          ((if 0 < depth.length then Transitivity.transitive
            else Transitivity.direct), d.1, d.2)) dep)))

/-- The newline separator `string("\n")`. -/
def nlP : Parser (List Char) := pstring "\n".toList

/-- `pom_tree`: `consume_line >> string("\n") >> tree_line.sep_by(string("\n"))
<< string("\n").optional()`. -/
def pom_tree : Parser (List (Nat × Transitivity × List Char × List Char)) :=
  pseqL (pseqR consume_line (pseqR nlP (psepBy tree_line nlP)))
    (poptional nlP)

/-- Modelled from the spec: `safe_path_parse` from `semdep/parsers/util.py` is
not in the sources.  Per §6/§7 it reads the file and runs the parser on its
text, returning `none` both when the file cannot be read and when the parser
rejects the text.  The file contents are modelled as an `Option`: `none` is an
unreadable file. -/
def safe_path_parse (contents : Option (List Char)) (p : Parser α) : Option α :=
  match contents with
  | none => none
  | some s => runParser p s

/-- `parse_pom_tree`: the public entry point.  A failed `safe_path_parse`
(`if not deps`) yields the empty list; otherwise each `(line_number,
(transitivity, package, version))` becomes a `FoundDependency` with ecosystem
`Maven` and empty `allowed_hashes`, in order. -/
def parse_pom_tree (contents : Option (List Char)) : List FoundDependency :=
  match safe_path_parse contents pom_tree with
  | none => []
  | some deps =>
    deps.map (fun x =>
      { package := x.2.2.1
        version := x.2.2.2
        ecosystem := Ecosystem.maven
        allowed_hashes := []
        transitivity := x.2.1
        line_number := x.1 })

/-! ### Well-formed dependency lines -/

/-- A well-formed dependency line of the tree notation: a (possibly empty)
run of indentation markers, one branch glyph, and a coordinate whose first
four fields are colon- and newline-free and are each terminated by a colon,
with a newline-free scope/classifier tail. -/
structure ValidLine where
  markers : List (List Char)
  glyph : List Char
  f1 : List Char
  f2 : List Char
  f3 : List Char
  f4 : List Char
  tl : List Char
  hm : ∀ m ∈ markers, m = "|  ".toList ∨ m = "   ".toList
  hg : glyph = "+- ".toList ∨ glyph = "\\- ".toList
  h1 : ∀ c ∈ f1, c ≠ ':' ∧ c ≠ '\n'
  h2 : ∀ c ∈ f2, c ≠ ':' ∧ c ≠ '\n'
  h3 : ∀ c ∈ f3, c ≠ ':' ∧ c ≠ '\n'
  h4 : ∀ c ∈ f4, c ≠ ':' ∧ c ≠ '\n'
  ht : '\n' ∉ tl

/-- The coordinate string of a well-formed dependency line. -/
def coordRender (v : ValidLine) : List Char :=
  v.f1 ++ ':' :: (v.f2 ++ ':' :: (v.f3 ++ ':' :: (v.f4 ++ ':' :: v.tl)))

/-- The full text of a well-formed dependency line (no newline). -/
def renderLine (v : ValidLine) : List Char :=
  v.markers.flatten ++ (v.glyph ++ coordRender v)

/-- The classification a well-formed dependency line parses to. -/
def lineValue (v : ValidLine) : Transitivity × List Char × List Char :=
  ((if 0 < v.markers.length then Transitivity.transitive
    else Transitivity.direct), v.f2, v.f4)

/-! ### Well-formed documents -/

/-- The text of a list of dependency lines, each preceded by its separating
newline. -/
def tailRender (ls : List ValidLine) : List Char :=
  (ls.map (fun v => '\n' :: renderLine v)).flatten

/-- The body of a document: the dependency lines separated by newlines. -/
def linesBody : List ValidLine → List Char
  | [] => []
  | v :: vs => renderLine v ++ tailRender vs

/-- The classified records the parser is expected to produce when the first
dependency line sits on line `ln` of the document. -/
def expectedRecords : Nat → List ValidLine →
    List (Nat × Transitivity × List Char × List Char)
  | _, [] => []
  | ln, v :: vs => (ln, lineValue v) :: expectedRecords (ln + 1) vs

/-- A well-formed document: a root label line, the dependency lines, and an
optional trailing newline `opt`. -/
def renderDoc (root : List Char) (ls : List ValidLine) (opt : List Char) :
    List Char :=
  root ++ '\n' :: (linesBody ls ++ opt)

/-- A remainder on which the repetition `(sep >> tree_line).many()` must stop:
either the end of the input, or a newline followed by text that is not a
dependency line. -/
def StopRest (r : List Char) : Prop :=
  r = [] ∨ ∃ rs, r = '\n' :: rs ∧ ∀ m, tree_line ⟨m, rs⟩ = none

/-- The record built from one classified line. -/
def depRecord (x : Nat × Transitivity × List Char × List Char) :
    FoundDependency :=
  { package := x.2.2.1
    version := x.2.2.2
    ecosystem := Ecosystem.maven
    allowed_hashes := []
    transitivity := x.2.1
    line_number := x.1 }

/-! ### Splitting a document into lines -/

/-- Split a character list into its newline-separated lines (a text of `k`
newline characters has `k + 1` lines). -/
def splitLines : List Char → List (List Char)
  | [] => [[]]
  | c :: rest =>
    if c = '\n' then [] :: splitLines rest
    else
      match splitLines rest with
      | [] => [[c]]
      | l :: ls => (c :: l) :: ls


/-- A sample well-formed dependency line at depth 0. -/
def sampleLine0 : ValidLine :=
  { markers := []
    glyph := "+- ".toList
    f1 := "a".toList
    f2 := "b".toList
    f3 := "c".toList
    f4 := "d".toList
    tl := "e".toList
    hm := by decide
    hg := Or.inl rfl
    h1 := by decide
    h2 := by decide
    h3 := by decide
    h4 := by decide
    ht := by decide }

/-- A sample well-formed dependency line at depth 2, mixing the two
indentation-marker spellings and using the last-child glyph. -/
def sampleLine2 : ValidLine :=
  { markers := ["|  ".toList, "   ".toList]
    glyph := "\\- ".toList
    f1 := "a".toList
    f2 := "b".toList
    f3 := "c".toList
    f4 := "d".toList
    tl := "e".toList
    hm := by decide
    hg := Or.inr rfl
    h1 := by decide
    h2 := by decide
    h3 := by decide
    h4 := by decide
    ht := by decide }

/-! ### Basic lemmas about the primitive combinators -/

theorem sepPred_true {c : Char} (h1 : c ≠ ':') (h2 : c ≠ '\n') :
    sepPred c = true := by
  simp [sepPred, h1, h2]

theorem upto_colon_eq (ln : Nat) (f r : List Char)
    (hf : ∀ c ∈ f, c ≠ ':' ∧ c ≠ '\n') :
    upto_colon ⟨ln, f ++ ':' :: r⟩ = some (f, ⟨ln, r⟩) := by
  have hall : ∀ c ∈ f, sepPred c = true := fun c hc =>
    sepPred_true (hf c hc).1 (hf c hc).2
  have hcolon : ¬ (sepPred ':' = true) := by decide
  simp only [upto_colon, List.dropWhile_append_of_pos hall,
    List.takeWhile_append_of_pos hall, List.dropWhile_cons_of_neg hcolon,
    List.takeWhile_cons_of_neg hcolon, List.append_nil]

theorem consume_line_eq (ln : Nat) (a r : List Char) (ha : '\n' ∉ a)
    (hr : r = [] ∨ ∃ rs, r = '\n' :: rs) :
    consume_line ⟨ln, a ++ r⟩ = some (a, ⟨ln, r⟩) := by
  have hall : ∀ c ∈ a, (!(c = '\n')) = true := by
    intro c hc
    simp only [Bool.not_eq_eq_eq_not, Bool.not_true, decide_eq_false_iff_not]
    intro h; exact ha (h ▸ hc)
  have hnl : ¬ ((!('\n' = '\n')) = true) := by decide
  have htw : List.takeWhile (fun c => !(c = '\n')) r = [] := by
    rcases hr with h | ⟨rs, h⟩ <;> subst h
    · rfl
    · exact List.takeWhile_cons_of_neg hnl
  have hdw : List.dropWhile (fun c => !(c = '\n')) r = r := by
    rcases hr with h | ⟨rs, h⟩ <;> subst h
    · rfl
    · exact List.dropWhile_cons_of_neg hnl
  simp only [consume_line, List.takeWhile_append_of_pos hall,
    List.dropWhile_append_of_pos hall, htw, hdw, List.append_nil]

theorem pstring_eq (s : List Char) (ln : Nat) (r : List Char) :
    pstring s ⟨ln, s ++ r⟩ = some (s, ⟨ln + s.count '\n', r⟩) := by
  unfold pstring
  rw [List.take_left, List.drop_left]
  simp

theorem pstring_eq0 (s : List Char) (ln : Nat) (r : List Char)
    (h : s.count '\n' = 0) :
    pstring s ⟨ln, s ++ r⟩ = some (s, ⟨ln, r⟩) := by
  rw [pstring_eq, h, Nat.add_zero]

theorem pstring_none (s : List Char) (ln : Nat) (r : List Char)
    (h : r.take s.length ≠ s) : pstring s ⟨ln, r⟩ = none := by
  simp only [pstring, if_neg h]

theorem pstring_ne (s m : List Char) (ln : Nat) (r : List Char)
    (hlen : m.length = s.length) (hne : m ≠ s) :
    pstring s ⟨ln, m ++ r⟩ = none := by
  apply pstring_none
  rw [List.take_left' hlen]
  exact hne

theorem nlP_eq (ln : Nat) (r : List Char) :
    nlP ⟨ln, '\n' :: r⟩ = some (['\n'], ⟨ln + 1, r⟩) := by
  have h := pstring_eq "\n".toList ln r
  simpa [nlP] using h

theorem nlP_none_nil (ln : Nat) : nlP ⟨ln, []⟩ = none := by
  unfold nlP
  exact pstring_none _ _ _ (by decide)

/-! ### Marker, glyph and depth lemmas -/

theorem marker_eq (ln : Nat) (m r : List Char)
    (hm : m = "|  ".toList ∨ m = "   ".toList) :
    markerP ⟨ln, m ++ r⟩ = some (m, ⟨ln, r⟩) := by
  rcases hm with h | h <;> subst h
  · have h1 : pstring "|  ".toList ⟨ln, "|  ".toList ++ r⟩
        = some ("|  ".toList, ⟨ln, r⟩) := pstring_eq0 _ _ _ (by decide)
    simp only [markerP, palt, h1]
  · have h1 : pstring "|  ".toList ⟨ln, "   ".toList ++ r⟩ = none :=
      pstring_ne _ _ _ _ (by decide) (by decide)
    have h2 : pstring "   ".toList ⟨ln, "   ".toList ++ r⟩
        = some ("   ".toList, ⟨ln, r⟩) := pstring_eq0 _ _ _ (by decide)
    simp only [markerP, palt, h1, h2]

theorem marker_none (ln : Nat) (r : List Char)
    (h1 : r.take 3 ≠ "|  ".toList) (h2 : r.take 3 ≠ "   ".toList) :
    markerP ⟨ln, r⟩ = none := by
  have g1 : pstring "|  ".toList ⟨ln, r⟩ = none := by
    apply pstring_none
    have e : ("|  ".toList).length = 3 := rfl
    rw [e]; exact h1
  have g2 : pstring "   ".toList ⟨ln, r⟩ = none := by
    apply pstring_none
    have e : ("   ".toList).length = 3 := rfl
    rw [e]; exact h2
  simp only [markerP, palt, g1, g2]

theorem marker_none_glyph (ln : Nat) (g r : List Char)
    (hg : g = "+- ".toList ∨ g = "\\- ".toList) :
    markerP ⟨ln, g ++ r⟩ = none := by
  rcases hg with h | h <;> subst h <;>
    exact marker_none _ _
      (by rw [List.take_left' (by decide)]; decide)
      (by rw [List.take_left' (by decide)]; decide)

theorem marker_none_nl (ln : Nat) (x : List Char) :
    markerP ⟨ln, '\n' :: x⟩ = none := by
  have e : ('\n' :: x).take 3 = '\n' :: x.take 2 := rfl
  apply marker_none <;>
    · rw [e]
      intro h
      injection h with h1 h2
      exact absurd h1 (by decide)

theorem marker_none_nil (ln : Nat) : markerP ⟨ln, []⟩ = none :=
  marker_none ln [] (by decide) (by decide)

theorem glyph_eq (ln : Nat) (g r : List Char)
    (hg : g = "+- ".toList ∨ g = "\\- ".toList) :
    glyphP ⟨ln, g ++ r⟩ = some (g, ⟨ln, r⟩) := by
  rcases hg with h | h <;> subst h
  · have h1 : pstring "+- ".toList ⟨ln, "+- ".toList ++ r⟩
        = some ("+- ".toList, ⟨ln, r⟩) := pstring_eq0 _ _ _ (by decide)
    simp only [glyphP, palt, h1]
  · have h1 : pstring "+- ".toList ⟨ln, "\\- ".toList ++ r⟩ = none :=
      pstring_ne _ _ _ _ (by decide) (by decide)
    have h2 : pstring "\\- ".toList ⟨ln, "\\- ".toList ++ r⟩
        = some ("\\- ".toList, ⟨ln, r⟩) := pstring_eq0 _ _ _ (by decide)
    simp only [glyphP, palt, h1, h2]

theorem glyph_none (ln : Nat) (r : List Char)
    (h1 : r.take 3 ≠ "+- ".toList) (h2 : r.take 3 ≠ "\\- ".toList) :
    glyphP ⟨ln, r⟩ = none := by
  have g1 : pstring "+- ".toList ⟨ln, r⟩ = none := by
    apply pstring_none
    have e : ("+- ".toList).length = 3 := rfl
    rw [e]; exact h1
  have g2 : pstring "\\- ".toList ⟨ln, r⟩ = none := by
    apply pstring_none
    have e : ("\\- ".toList).length = 3 := rfl
    rw [e]; exact h2
  simp only [glyphP, palt, g1, g2]

theorem glyph_none_nl (ln : Nat) (x : List Char) :
    glyphP ⟨ln, '\n' :: x⟩ = none := by
  have e : ('\n' :: x).take 3 = '\n' :: x.take 2 := rfl
  apply glyph_none <;>
    · rw [e]
      intro h
      injection h with h1 h2
      exact absurd h1 (by decide)

theorem glyph_none_nil (ln : Nat) : glyphP ⟨ln, []⟩ = none :=
  glyph_none ln [] (by decide) (by decide)

theorem markers_join_length {ms : List (List Char)}
    (hms : ∀ m ∈ ms, m = "|  ".toList ∨ m = "   ".toList) :
    ms.flatten.length = 3 * ms.length := by
  induction ms with
  | nil => rfl
  | cons m ms2 ih =>
    have hm : m.length = 3 := by
      rcases hms m (List.mem_cons_self m ms2) with h | h <;> subst h <;> rfl
    have ih2 := ih (fun x hx => hms x (List.mem_cons_of_mem m hx))
    simp only [List.flatten_cons, List.length_append, hm, ih2, List.length_cons]
    ring

theorem pmanyAux_marker (g r : List Char)
    (hg : g = "+- ".toList ∨ g = "\\- ".toList) :
    ∀ (n : Nat) (ms : List (List Char)) (ln : Nat), ms.length < n →
      (∀ m ∈ ms, m = "|  ".toList ∨ m = "   ".toList) →
      pmanyAux markerP n ⟨ln, ms.flatten ++ (g ++ r)⟩ = some (ms, ⟨ln, g ++ r⟩) := by
  intro n
  induction n with
  | zero => intro ms ln h _; exact absurd h (Nat.not_lt_zero _)
  | succ n ih =>
    intro ms ln h hms
    cases ms with
    | nil =>
      have hfail := marker_none_glyph ln g r hg
      simp only [List.flatten_nil, List.nil_append, pmanyAux, hfail]
    | cons m ms2 =>
      have hm := marker_eq ln m (ms2.flatten ++ (g ++ r))
        (hms m (List.mem_cons_self m ms2))
      have hrec := ih ms2 ln (Nat.lt_of_succ_lt_succ h)
        (fun x hx => hms x (List.mem_cons_of_mem m hx))
      simp only [List.flatten_cons, List.append_assoc, pmanyAux, hm, hrec]

theorem pmany_marker (ln : Nat) (ms : List (List Char)) (g r : List Char)
    (hms : ∀ m ∈ ms, m = "|  ".toList ∨ m = "   ".toList)
    (hg : g = "+- ".toList ∨ g = "\\- ".toList) :
    pmany markerP ⟨ln, ms.flatten ++ (g ++ r)⟩ = some (ms, ⟨ln, g ++ r⟩) := by
  unfold pmany
  apply pmanyAux_marker g r hg _ ms ln _ hms
  have hlen := markers_join_length hms
  simp only [List.length_append, hlen]
  omega

theorem depthP_eq (ln : Nat) (ms : List (List Char)) (g r : List Char)
    (hms : ∀ m ∈ ms, m = "|  ".toList ∨ m = "   ".toList)
    (hg : g = "+- ".toList ∨ g = "\\- ".toList) :
    depthP ⟨ln, ms.flatten ++ (g ++ r)⟩ = some (ms, ⟨ln, g ++ r⟩) := by
  cases ms with
  | nil =>
    have hfail := marker_none_glyph ln g r hg
    simp only [List.flatten_nil, List.nil_append, depthP, palt, patLeast1,
      pbind, hfail, psuccess]
  | cons m ms2 =>
    have hm := marker_eq ln m (ms2.flatten ++ (g ++ r))
      (hms m (List.mem_cons_self m ms2))
    have hmany := pmany_marker ln ms2 g r
      (fun x hx => hms x (List.mem_cons_of_mem m hx)) hg
    simp only [List.flatten_cons, List.append_assoc, depthP, palt, patLeast1,
      pbind, pmap, hm, hmany]

theorem depthP_stuck_nl (ln : Nat) (x : List Char) :
    depthP ⟨ln, '\n' :: x⟩ = some ([], ⟨ln, '\n' :: x⟩) := by
  have hfail := marker_none_nl ln x
  simp only [depthP, palt, patLeast1, pbind, hfail]
  rfl

theorem depthP_stuck_nil (ln : Nat) :
    depthP ⟨ln, []⟩ = some ([], ⟨ln, []⟩) := by
  have hfail := marker_none_nil ln
  simp only [depthP, palt, patLeast1, pbind, hfail]
  rfl

/-! ### The coordinate extractor -/

theorem dep_eq (ln : Nat) (f1 f2 f3 f4 tl r : List Char)
    (h1 : ∀ c ∈ f1, c ≠ ':' ∧ c ≠ '\n') (h2 : ∀ c ∈ f2, c ≠ ':' ∧ c ≠ '\n')
    (h3 : ∀ c ∈ f3, c ≠ ':' ∧ c ≠ '\n') (h4 : ∀ c ∈ f4, c ≠ ':' ∧ c ≠ '\n')
    (ht : '\n' ∉ tl) (hr : r = [] ∨ ∃ rs, r = '\n' :: rs) :
    dep ⟨ln, f1 ++ ':' :: (f2 ++ ':' :: (f3 ++ ':' :: (f4 ++ ':' :: (tl ++ r))))⟩
      = some ((f2, f4), ⟨ln, r⟩) := by
  have e1 := upto_colon_eq ln f1
    (f2 ++ ':' :: (f3 ++ ':' :: (f4 ++ ':' :: (tl ++ r)))) h1
  have e2 := upto_colon_eq ln f2 (f3 ++ ':' :: (f4 ++ ':' :: (tl ++ r))) h2
  have e3 := upto_colon_eq ln f3 (f4 ++ ':' :: (tl ++ r)) h3
  have e4 := upto_colon_eq ln f4 (tl ++ r) h4
  have e5 := consume_line_eq ln tl r ht hr
  simp only [dep, pseqR, pbind, pseqL, pmap, psuccess, e1, e2, e3, e4, e5]

theorem renderLine_no_nl (v : ValidLine) : '\n' ∉ renderLine v := by
  intro hmem
  simp only [renderLine, coordRender, List.mem_append, List.mem_cons,
    List.mem_flatten] at hmem
  rcases hmem with ⟨l, hl, hc⟩ | hmem
  · rcases v.hm l hl with h | h <;> subst h <;>
      exact absurd hc (by decide)
  rcases hmem with hc | hmem
  · rcases v.hg with h | h <;> rw [h] at hc <;>
      exact absurd hc (by decide)
  rcases hmem with hc | hmem
  · exact (v.h1 '\n' hc).2 rfl
  rcases hmem with hc | hmem
  · exact absurd hc (by decide)
  rcases hmem with hc | hmem
  · exact (v.h2 '\n' hc).2 rfl
  rcases hmem with hc | hmem
  · exact absurd hc (by decide)
  rcases hmem with hc | hmem
  · exact (v.h3 '\n' hc).2 rfl
  rcases hmem with hc | hmem
  · exact absurd hc (by decide)
  rcases hmem with hc | hmem
  · exact (v.h4 '\n' hc).2 rfl
  rcases hmem with hc | hc
  · exact absurd hc (by decide)
  · exact v.ht hc

theorem renderLine_ne_nil (v : ValidLine) : renderLine v ≠ [] := by
  simp only [renderLine]
  intro h
  rcases List.append_eq_nil.mp h with ⟨_, h2⟩
  rcases List.append_eq_nil.mp h2 with ⟨hg, _⟩
  rcases v.hg with e | e <;> rw [e] at hg <;> exact absurd hg (by decide)

theorem tree_line_eq (ln : Nat) (v : ValidLine) (r : List Char)
    (hr : r = [] ∨ ∃ rs, r = '\n' :: rs) :
    tree_line ⟨ln, renderLine v ++ r⟩ = some ((ln, lineValue v), ⟨ln, r⟩) := by
  have hassoc : renderLine v ++ r
      = v.markers.flatten ++ (v.glyph ++ (v.f1 ++ ':' :: (v.f2 ++ ':' ::
        (v.f3 ++ ':' :: (v.f4 ++ ':' :: (v.tl ++ r)))))) := by
    simp [renderLine, coordRender, List.append_assoc]
  rw [hassoc]
  have hdep := depthP_eq ln v.markers v.glyph
    (v.f1 ++ ':' :: (v.f2 ++ ':' :: (v.f3 ++ ':' :: (v.f4 ++ ':' :: (v.tl ++ r)))))
    v.hm v.hg
  have hgl := glyph_eq ln v.glyph
    (v.f1 ++ ':' :: (v.f2 ++ ':' :: (v.f3 ++ ':' :: (v.f4 ++ ':' :: (v.tl ++ r)))))
    v.hg
  have hdp := dep_eq ln v.f1 v.f2 v.f3 v.f4 v.tl r v.h1 v.h2 v.h3 v.h4 v.ht hr
  simp only [tree_line, mark_line, pbind, pseqR, pmap, hdep, hgl, hdp, lineValue]

theorem tree_line_none_nl (ln : Nat) (x : List Char) :
    tree_line ⟨ln, '\n' :: x⟩ = none := by
  have hd := depthP_stuck_nl ln x
  have hg := glyph_none_nl ln x
  simp only [tree_line, mark_line, pbind, pseqR, pmap, hd, hg]

theorem tree_line_none_nil (ln : Nat) : tree_line ⟨ln, []⟩ = none := by
  have hd := depthP_stuck_nil ln
  have hg := glyph_none_nil ln
  simp only [tree_line, mark_line, pbind, pseqR, pmap, hd, hg]

theorem stopRest_shape {r : List Char} (h : StopRest r) :
    r = [] ∨ ∃ rs, r = '\n' :: rs := by
  rcases h with h | ⟨rs, h, _⟩
  · exact Or.inl h
  · exact Or.inr ⟨rs, h⟩

theorem seqnl_none (ln : Nat) (r : List Char) (h : StopRest r) :
    pseqR nlP tree_line ⟨ln, r⟩ = none := by
  rcases h with h | ⟨rs, h, htl⟩ <;> subst h
  · simp only [pseqR, pbind, nlP_none_nil]
  · simp only [pseqR, pbind, nlP_eq, htl]

theorem tailRender_cons (v : ValidLine) (vs : List ValidLine) :
    tailRender (v :: vs) = '\n' :: (renderLine v ++ tailRender vs) := by
  simp [tailRender, List.flatten_cons]

theorem tailRender_eq_body (v : ValidLine) (vs : List ValidLine) :
    tailRender (v :: vs) = '\n' :: linesBody (v :: vs) := by
  simp [tailRender_cons, linesBody, tailRender]

theorem tailRender_length (ls : List ValidLine) :
    ls.length ≤ (tailRender ls).length := by
  induction ls with
  | nil => simp [tailRender]
  | cons v vs ih =>
    rw [tailRender_cons]
    simp only [List.length_cons, List.length_append]
    omega

theorem tailRest_shape (vs : List ValidLine) (rest : List Char)
    (h : StopRest rest) :
    tailRender vs ++ rest = [] ∨ ∃ rs, tailRender vs ++ rest = '\n' :: rs := by
  cases vs with
  | nil =>
    simp only [tailRender, List.map_nil, List.flatten_nil, List.nil_append]
    exact stopRest_shape h
  | cons v vs2 =>
    rw [tailRender_cons]
    exact Or.inr ⟨_, rfl⟩

theorem pmanyAux_lines :
    ∀ (n : Nat) (ls : List ValidLine) (ln : Nat) (rest : List Char),
      ls.length < n → StopRest rest →
      pmanyAux (pseqR nlP tree_line) n ⟨ln, tailRender ls ++ rest⟩
        = some (expectedRecords (ln + 1) ls, ⟨ln + ls.length, rest⟩) := by
  intro n
  induction n with
  | zero => intro ls ln rest h _; exact absurd h (Nat.not_lt_zero _)
  | succ n ih =>
    intro ls ln rest h hstop
    cases ls with
    | nil =>
      have hfail := seqnl_none ln rest hstop
      simp only [tailRender, List.map_nil, List.flatten_nil, List.nil_append,
        pmanyAux, hfail, expectedRecords, List.length_nil, Nat.add_zero]
    | cons v vs =>
      have hnl' : nlP ⟨ln, '\n' :: (renderLine v ++ (tailRender vs ++ rest))⟩
          = some (['\n'], ⟨ln + 1, renderLine v ++ (tailRender vs ++ rest)⟩) :=
        nlP_eq _ _
      have htl := tree_line_eq (ln + 1) v (tailRender vs ++ rest)
        (tailRest_shape vs rest hstop)
      have hrec := ih vs (ln + 1) rest (Nat.lt_of_succ_lt_succ h) hstop
      have hseq : pseqR nlP tree_line
          ⟨ln, '\n' :: (renderLine v ++ (tailRender vs ++ rest))⟩
          = some ((ln + 1, lineValue v), ⟨ln + 1, tailRender vs ++ rest⟩) := by
        simp only [pseqR, pbind, hnl', htl]
      rw [tailRender_cons, List.cons_append, List.append_assoc]
      simp only [pmanyAux, hseq, hrec, expectedRecords, List.length_cons]
      have e : ln + 1 + vs.length = ln + (vs.length + 1) := by omega
      rw [e]

theorem pmany_lines (ls : List ValidLine) (ln : Nat) (rest : List Char)
    (hstop : StopRest rest) :
    pmany (pseqR nlP tree_line) ⟨ln, tailRender ls ++ rest⟩
      = some (expectedRecords (ln + 1) ls, ⟨ln + ls.length, rest⟩) := by
  unfold pmany
  apply pmanyAux_lines _ ls ln rest _ hstop
  have := tailRender_length ls
  simp only [List.length_append]
  omega

theorem tree_line_none_stop (ln : Nat) (rest : List Char) (h : StopRest rest) :
    tree_line ⟨ln, rest⟩ = none := by
  rcases h with h | ⟨rs, h, _⟩ <;> subst h
  · exact tree_line_none_nil ln
  · exact tree_line_none_nl ln rs

theorem psepBy_lines (ln : Nat) (ls : List ValidLine) (rest : List Char)
    (hstop : StopRest rest) :
    ∃ m, psepBy tree_line nlP ⟨ln, linesBody ls ++ rest⟩
      = some (expectedRecords ln ls, ⟨m, rest⟩) := by
  cases ls with
  | nil =>
    refine ⟨ln, ?_⟩
    have hfail := tree_line_none_stop ln rest hstop
    simp only [linesBody, List.nil_append, psepBy, psepBy1, palt, pbind,
      hfail, psuccess, expectedRecords]
  | cons v vs =>
    refine ⟨ln + vs.length, ?_⟩
    have htl := tree_line_eq ln v (tailRender vs ++ rest)
      (tailRest_shape vs rest hstop)
    have hmany := pmany_lines vs ln rest hstop
    simp only [linesBody, List.append_assoc, psepBy, psepBy1, palt, pbind,
      pmap, htl, hmany, expectedRecords]

/-- The full run of `pom_tree` on a well-formed document. -/
theorem pom_tree_run (root : List Char) (ls : List ValidLine)
    (opt : List Char) (hroot : '\n' ∉ root) (hopt : opt = [] ∨ opt = ['\n']) :
    runParser pom_tree (renderDoc root ls opt) = some (expectedRecords 2 ls) := by
  have hstop : StopRest opt := by
    rcases hopt with h | h <;> subst h
    · exact Or.inl rfl
    · exact Or.inr ⟨[], rfl, fun m => tree_line_none_nil m⟩
  have hcl : consume_line ⟨1, root ++ '\n' :: (linesBody ls ++ opt)⟩
      = some (root, ⟨1, '\n' :: (linesBody ls ++ opt)⟩) :=
    consume_line_eq 1 root _ hroot (Or.inr ⟨_, rfl⟩)
  have hnl : nlP ⟨1, '\n' :: (linesBody ls ++ opt)⟩
      = some (['\n'], ⟨2, linesBody ls ++ opt⟩) := nlP_eq 1 _
  obtain ⟨m, hsep⟩ := psepBy_lines 2 ls opt hstop
  rcases hopt with h | h <;> subst h
  · have hopt' : poptional nlP ⟨m, []⟩ = some (none, ⟨m, []⟩) := by
      simp only [poptional, palt, pmap, nlP_none_nil, psuccess]
    simp only [runParser, renderDoc, pom_tree, pseqL, pseqR, pbind, pmap,
      hcl, hnl, hsep, hopt', if_pos rfl, if_true]
  · have hopt' : poptional nlP ⟨m, ['\n']⟩ = some (some ['\n'], ⟨m + 1, []⟩) := by
      have := nlP_eq m ([] : List Char)
      simp only [poptional, palt, pmap, this]
    simp only [runParser, renderDoc, pom_tree, pseqL, pseqR, pbind, pmap,
      hcl, hnl, hsep, hopt', if_pos rfl, if_true]

/-! ### Failing documents -/

/-- A document whose last separated segment `b` is nonempty and is not a
dependency line makes the whole parse fail. -/
theorem pom_tree_fail_badline (root : List Char) (ls : List ValidLine)
    (b : List Char) (hroot : '\n' ∉ root) (hb : b ≠ [])
    (htl : ∀ m, tree_line ⟨m, b⟩ = none) :
    runParser pom_tree (root ++ '\n' :: (linesBody ls ++ '\n' :: b)) = none := by
  have hstop : StopRest ('\n' :: b) := Or.inr ⟨b, rfl, htl⟩
  have hcl : consume_line ⟨1, root ++ '\n' :: (linesBody ls ++ '\n' :: b)⟩
      = some (root, ⟨1, '\n' :: (linesBody ls ++ '\n' :: b)⟩) :=
    consume_line_eq 1 root _ hroot (Or.inr ⟨_, rfl⟩)
  have hnl : nlP ⟨1, '\n' :: (linesBody ls ++ '\n' :: b)⟩
      = some (['\n'], ⟨2, linesBody ls ++ '\n' :: b⟩) := nlP_eq 1 _
  obtain ⟨m, hsep⟩ := psepBy_lines 2 ls ('\n' :: b) hstop
  have hopt' : poptional nlP ⟨m, '\n' :: b⟩ = some (some ['\n'], ⟨m + 1, b⟩) := by
    have := nlP_eq m b
    simp only [poptional, palt, pmap, this]
  simp only [runParser, pom_tree, pseqL, pseqR, pbind, pmap, hcl, hnl, hsep,
    hopt', if_neg hb]

/-- A blank line after zero or more dependency lines (other than a single
trailing newline) makes the whole parse fail, whatever follows it. -/
theorem pom_tree_fail_blankline (root : List Char) (ls : List ValidLine)
    (x : List Char) (hroot : '\n' ∉ root) :
    runParser pom_tree
      (root ++ '\n' :: (linesBody ls ++ '\n' :: '\n' :: x)) = none :=
  pom_tree_fail_badline root ls ('\n' :: x) hroot (by simp)
    (fun m => tree_line_none_nl m x)

/-- A document whose second line is blank and that continues after it makes
the whole parse fail. -/
theorem pom_tree_fail_blank0 (root : List Char) (x : List Char)
    (hroot : '\n' ∉ root) (hx : x ≠ []) :
    runParser pom_tree (root ++ '\n' :: '\n' :: x) = none := by
  have hcl : consume_line ⟨1, root ++ '\n' :: '\n' :: x⟩
      = some (root, ⟨1, '\n' :: '\n' :: x⟩) :=
    consume_line_eq 1 root _ hroot (Or.inr ⟨_, rfl⟩)
  have hnl : nlP ⟨1, '\n' :: '\n' :: x⟩ = some (['\n'], ⟨2, '\n' :: x⟩) :=
    nlP_eq 1 _
  have hsep : psepBy tree_line nlP ⟨2, '\n' :: x⟩ = some ([], ⟨2, '\n' :: x⟩) := by
    have hfail := tree_line_none_nl 2 x
    simp only [psepBy, psepBy1, palt, pbind, hfail, psuccess]
  have hopt' : poptional nlP ⟨2, '\n' :: x⟩ = some (some ['\n'], ⟨3, x⟩) := by
    have := nlP_eq 2 x
    simp only [poptional, palt, pmap, this]
  simp only [runParser, pom_tree, pseqL, pseqR, pbind, pmap, hcl, hnl, hsep,
    hopt', if_neg hx]

/-! ### The public entry point -/

theorem parse_pom_tree_of_fail (s : List Char)
    (h : runParser pom_tree s = none) : parse_pom_tree (some s) = [] := by
  simp only [parse_pom_tree, safe_path_parse, h]

theorem parse_pom_tree_of_run (s : List Char)
    (recs : List (Nat × Transitivity × List Char × List Char))
    (h : runParser pom_tree s = some recs) :
    parse_pom_tree (some s) = recs.map depRecord := by
  simp only [parse_pom_tree, safe_path_parse, h, depRecord]
  rfl

theorem parse_pom_tree_run (root : List Char) (ls : List ValidLine)
    (opt : List Char) (hroot : '\n' ∉ root) (hopt : opt = [] ∨ opt = ['\n']) :
    parse_pom_tree (some (renderDoc root ls opt))
      = (expectedRecords 2 ls).map depRecord :=
  parse_pom_tree_of_run _ _ (pom_tree_run root ls opt hroot hopt)

theorem splitLines_no_nl (a : List Char) (h : '\n' ∉ a) :
    splitLines a = [a] := by
  induction a with
  | nil => rfl
  | cons c a2 ih =>
    have hc : ¬ c = '\n' := fun e => h (e ▸ List.mem_cons_self c a2)
    have ih2 := ih (fun hm => h (List.mem_cons_of_mem c hm))
    simp only [splitLines, if_neg hc, ih2]

theorem splitLines_append (a b : List Char) (h : '\n' ∉ a) :
    splitLines (a ++ '\n' :: b) = a :: splitLines b := by
  induction a with
  | nil => simp [List.nil_append, splitLines]
  | cons c a2 ih =>
    have hc : ¬ c = '\n' := fun e => h (e ▸ List.mem_cons_self c a2)
    have ih2 := ih (fun hm => h (List.mem_cons_of_mem c hm))
    simp only [List.cons_append, splitLines, if_neg hc, List.append_eq, ih2]

theorem splitLines_body (ls : List ValidLine) (opt : List Char)
    (hls : ls ≠ []) (hopt : opt = [] ∨ opt = ['\n']) :
    splitLines (linesBody ls ++ opt)
      = ls.map renderLine ++ opt.map (fun _ => ([] : List Char)) := by
  induction ls with
  | nil => exact absurd rfl hls
  | cons v vs ih =>
    cases vs with
    | nil =>
      rcases hopt with h | h <;> subst h
      · simp only [linesBody, tailRender, List.map_nil, List.flatten_nil,
          List.append_nil, List.map_cons]
        rw [splitLines_no_nl _ (renderLine_no_nl v)]
      · simp only [linesBody, tailRender, List.map_nil, List.flatten_nil,
          List.append_nil, List.map_cons]
        rw [splitLines_append _ _ (renderLine_no_nl v)]
        rfl
    | cons v2 vs2 =>
      have hne : (v2 :: vs2 : List ValidLine) ≠ [] := by simp
      have hbody : linesBody (v :: v2 :: vs2) ++ opt
          = renderLine v ++ '\n' :: (linesBody (v2 :: vs2) ++ opt) := by
        rw [show linesBody (v :: v2 :: vs2)
            = renderLine v ++ tailRender (v2 :: vs2) from rfl,
          tailRender_eq_body]
        simp [List.append_assoc]
      rw [hbody, splitLines_append _ _ (renderLine_no_nl v), ih hne]
      simp

theorem splitLines_doc (root : List Char) (ls : List ValidLine)
    (opt : List Char) (hroot : '\n' ∉ root) (hls : ls ≠ [])
    (hopt : opt = [] ∨ opt = ['\n']) :
    splitLines (renderDoc root ls opt)
      = root :: (ls.map renderLine ++ opt.map (fun _ => ([] : List Char))) := by
  unfold renderDoc
  rw [splitLines_append root _ hroot, splitLines_body ls opt hls hopt]

/-! ### Shape of the expected records -/

theorem expectedRecords_length (ln : Nat) (ls : List ValidLine) :
    (expectedRecords ln ls).length = ls.length := by
  induction ls generalizing ln with
  | nil => rfl
  | cons v vs ih => simp only [expectedRecords, List.length_cons, ih]

theorem expectedRecords_map_fst (ln : Nat) (ls : List ValidLine) :
    (expectedRecords ln ls).map (fun x => x.1)
      = List.range' ln ls.length := by
  induction ls generalizing ln with
  | nil => rfl
  | cons v vs ih =>
    have e : List.range' ln (vs.length + 1)
        = ln :: List.range' (ln + 1) vs.length := rfl
    simp only [expectedRecords, List.map_cons, ih, List.length_cons, e]

theorem expectedRecords_map_val (ln : Nat) (ls : List ValidLine) :
    (expectedRecords ln ls).map (fun x => x.2) = ls.map lineValue := by
  induction ls generalizing ln with
  | nil => rfl
  | cons v vs ih => simp only [expectedRecords, List.map_cons, ih]

/-! ### Exact failure condition of the coordinate extractor -/

theorem dropWhile_head_false (p : Char → Bool) :
    ∀ (l : List Char) (c : Char) (r : List Char),
      l.dropWhile p = c :: r → p c = false := by
  intro l
  induction l with
  | nil => intro c r h; exact absurd h (by simp)
  | cons a l2 ih =>
    intro c r h
    by_cases hp : p a
    · rw [List.dropWhile_cons_of_pos hp] at h
      exact ih c r h
    · rw [List.dropWhile_cons_of_neg hp] at h
      cases h
      exact Bool.of_not_eq_true hp

theorem upto_colon_some (ln : Nat) (l : List Char) (hnl : '\n' ∉ l)
    (hc : ':' ∈ l) :
    ∃ t r, upto_colon ⟨ln, l⟩ = some (t, ⟨ln, r⟩) ∧ '\n' ∉ r ∧
      r.count ':' + 1 = l.count ':' := by
  have hsplit := List.takeWhile_append_dropWhile sepPred l
  rcases hd : l.dropWhile sepPred with _ | ⟨c, r⟩
  · rw [hd, List.append_nil] at hsplit
    rw [← hsplit] at hc
    have := List.mem_takeWhile_imp hc
    exact absurd this (by decide)
  · have hcf : sepPred c = false := dropWhile_head_false sepPred l c r hd
    have hcl : c ∈ l := by
      rw [← hsplit, hd]
      exact List.mem_append_right _ (List.mem_cons_self c r)
    have hcc : c = ':' := by
      have hne : c ≠ '\n' := fun e => hnl (e ▸ hcl)
      by_contra hne2
      have ht := sepPred_true hne2 hne
      rw [ht] at hcf
      exact absurd hcf (by decide)
    subst hcc
    refine ⟨l.takeWhile sepPred, r, ?_, ?_, ?_⟩
    · simp only [upto_colon, hd]
    · intro hm
      apply hnl
      rw [← hsplit, hd]
      exact List.mem_append_right _ (List.mem_cons_of_mem _ hm)
    · have htc : (l.takeWhile sepPred).count ':' = 0 := by
        apply List.count_eq_zero.mpr
        intro hm
        exact absurd (List.mem_takeWhile_imp hm) (by decide)
      have hl : l.count ':' = (l.takeWhile sepPred ++ ':' :: r).count ':' := by
        conv_lhs => rw [← hsplit, hd]
      rw [hl, List.count_append]
      simp [htc, List.count_cons]

theorem upto_colon_none_of (ln : Nat) (l : List Char)
    (h : ':' ∉ l) : upto_colon ⟨ln, l⟩ = none := by
  have hsplit := List.takeWhile_append_dropWhile sepPred l
  rcases hd : l.dropWhile sepPred with _ | ⟨c, r⟩
  · simp only [upto_colon, hd]
  · have hcl : c ∈ l := by
      rw [← hsplit, hd]
      exact List.mem_append_right _ (List.mem_cons_self c r)
    have hcc : c ≠ ':' := fun e => h (e ▸ hcl)
    simp only [upto_colon, hd]
    split
    · rename_i heq
      cases heq
      exact absurd rfl hcc
    · rfl

theorem upto_colon_cases (ln : Nat) (l : List Char) (hnl : '\n' ∉ l) :
    (l.count ':' = 0 ∧ upto_colon ⟨ln, l⟩ = none) ∨
    (∃ t r, upto_colon ⟨ln, l⟩ = some (t, ⟨ln, r⟩) ∧ '\n' ∉ r ∧
      r.count ':' + 1 = l.count ':') := by
  by_cases hc : ':' ∈ l
  · exact Or.inr (upto_colon_some ln l hnl hc)
  · exact Or.inl ⟨List.count_eq_zero.mpr hc, upto_colon_none_of ln l hc⟩

theorem dep_none_of_count_lt (ln : Nat) (l : List Char) (hnl : '\n' ∉ l)
    (h : l.count ':' < 4) : dep ⟨ln, l⟩ = none := by
  rcases upto_colon_cases ln l hnl with ⟨c0, hu1⟩ | ⟨t1, r1, hu1, hn1, hc1⟩
  · simp only [dep, pseqR, pbind, hu1]
  rcases upto_colon_cases ln r1 hn1 with ⟨c0, hu2⟩ | ⟨t2, r2, hu2, hn2, hc2⟩
  · simp only [dep, pseqR, pbind, hu1, hu2]
  rcases upto_colon_cases ln r2 hn2 with ⟨c0, hu3⟩ | ⟨t3, r3, hu3, hn3, hc3⟩
  · simp only [dep, pseqR, pbind, hu1, hu2, hu3]
  rcases upto_colon_cases ln r3 hn3 with ⟨c0, hu4⟩ | ⟨t4, r4, hu4, hn4, hc4⟩
  · simp only [dep, pseqR, pbind, hu1, hu2, hu3, hu4]
  · exfalso
    omega

theorem dep_some_of_count_ge (ln : Nat) (l : List Char) (hnl : '\n' ∉ l)
    (h : 4 ≤ l.count ':') : ∃ pv st2, dep ⟨ln, l⟩ = some (pv, st2) := by
  obtain ⟨t1, r1, hu1, hn1, hc1⟩ :=
    upto_colon_some ln l hnl (List.count_pos_iff.mp (by omega))
  obtain ⟨t2, r2, hu2, hn2, hc2⟩ :=
    upto_colon_some ln r1 hn1 (List.count_pos_iff.mp (by omega))
  obtain ⟨t3, r3, hu3, hn3, hc3⟩ :=
    upto_colon_some ln r2 hn2 (List.count_pos_iff.mp (by omega))
  obtain ⟨t4, r4, hu4, hn4, hc4⟩ :=
    upto_colon_some ln r3 hn3 (List.count_pos_iff.mp (by omega))
  refine ⟨(t2, t4), ⟨ln, r4.dropWhile (fun c => !(c = '\n'))⟩, ?_⟩
  simp only [dep, pseqR, pbind, pseqL, pmap, psuccess, hu1, hu2, hu3, hu4,
    consume_line]

/-- The coordinate extractor fails on a line exactly when the line holds
fewer than four colon characters. -/
theorem dep_none_iff (ln : Nat) (l : List Char) (hnl : '\n' ∉ l) :
    dep ⟨ln, l⟩ = none ↔ l.count ':' < 4 := by
  constructor
  · intro h
    by_contra hlt
    push_neg at hlt
    obtain ⟨pv, st2, hsome⟩ := dep_some_of_count_ge ln l hnl hlt
    rw [h] at hsome
    exact absurd hsome (by simp)
  · exact dep_none_of_count_lt ln l hnl

/-! ### Concrete checks of the embedding -/

example :
    runParser pom_tree "project\n+- org.a:log4j-api:jar:0.0.2:compile".toList
      = some [(2, Transitivity.direct, "log4j-api".toList, "0.0.2".toList)] := by
  decide

example :
    runParser pom_tree "p\n+- a:b:jar:1:c\n|  \\- d:e:jar:2:f\n".toList
      = some [(2, Transitivity.direct, "b".toList, "1".toList),
              (3, Transitivity.transitive, "e".toList, "2".toList)] := by
  decide

example : runParser pom_tree "p\n+- a:b:jar:1\n".toList = none := by decide

example : runParser pom_tree "p\n\n".toList = some [] := by decide

example : runParser pom_tree "p\n+- a:b:c:1:s\n\n".toList = none := by decide

/-! ### Further record-shape lemmas -/

theorem countP_renderLines (ls : List ValidLine) :
    (ls.map renderLine).countP (fun l => !l.isEmpty) = ls.length := by
  induction ls with
  | nil => rfl
  | cons v vs ih =>
    have hne : (!(renderLine v).isEmpty) = true := by
      rcases hr : renderLine v with _ | ⟨c, r⟩
      · exact absurd hr (renderLine_ne_nil v)
      · rfl
    simp only [List.map_cons, List.countP_cons, ih, hne, if_pos, List.length_cons]

theorem expectedRecords_map_pv (ln : Nat) (ls : List ValidLine) :
    (expectedRecords ln ls).map (fun x => (x.2.2.1, x.2.2.2))
      = ls.map (fun v => (v.f2, v.f4)) := by
  induction ls generalizing ln with
  | nil => rfl
  | cons v vs ih => simp only [expectedRecords, List.map_cons, ih, lineValue]

/-! ### The claims -/

/-- Claim C1: for every input, if the file cannot be read or the grammar
rejects the document, the public entry point `parse_pom_tree` returns the
empty sequence rather than raising or returning a partial list. -/
theorem C1_entry_point_empty_on_failure (contents : Option (List Char))
    (h : contents = none ∨
      ∃ s, contents = some s ∧ runParser pom_tree s = none) :
    parse_pom_tree contents = [] := by
  rcases h with h | ⟨s, hs, hrun⟩
  · subst h; rfl
  · subst hs; exact parse_pom_tree_of_fail s hrun

theorem C1_witness : parse_pom_tree (some "root".toList) = [] :=
  C1_entry_point_empty_on_failure (some "root".toList)
    (Or.inr ⟨"root".toList, rfl, by decide⟩)

/-- Claim C2: for every dependency line, the coordinate extractor splits the
coordinate string on its first four colon-delimited segments, returns the
second segment as the dependency name and the fourth as the version, and
discards segments one and three and everything after the fourth colon up to
the end of the line. -/
theorem C2_dep_keeps_second_and_fourth (ln : Nat)
    (f1 f2 f3 f4 tl r : List Char)
    (h1 : ∀ c ∈ f1, c ≠ ':' ∧ c ≠ '\n') (h2 : ∀ c ∈ f2, c ≠ ':' ∧ c ≠ '\n')
    (h3 : ∀ c ∈ f3, c ≠ ':' ∧ c ≠ '\n') (h4 : ∀ c ∈ f4, c ≠ ':' ∧ c ≠ '\n')
    (ht : '\n' ∉ tl) (hr : r = [] ∨ ∃ rs, r = '\n' :: rs) :
    dep ⟨ln, f1 ++ ':' :: (f2 ++ ':' :: (f3 ++ ':' :: (f4 ++ ':' :: (tl ++ r))))⟩
      = some ((f2, f4), ⟨ln, r⟩) :=
  dep_eq ln f1 f2 f3 f4 tl r h1 h2 h3 h4 ht hr

theorem C2_witness :
    dep ⟨1, "org.apache".toList ++ ':' :: ("log4j-api".toList ++ ':' ::
      ("jar".toList ++ ':' :: ("0.0.2".toList ++ ':' ::
        ("compile".toList ++ []))))⟩
      = some (("log4j-api".toList, "0.0.2".toList), ⟨1, []⟩) :=
  C2_dep_keeps_second_and_fourth 1 "org.apache".toList "log4j-api".toList
    "jar".toList "0.0.2".toList "compile".toList [] (by decide) (by decide)
    (by decide) (by decide) (by decide) (Or.inl rfl)

/-- Claim C3 counterexample: a coordinate with exactly four colon-delimited
segments and no trailing scope tail, such as `group:artifact:jar:1.0`, is NOT
accepted: the extractor demands a colon after the fourth field, so the whole
parse fails and the entry point returns the empty sequence on a document
holding such a line. -/
theorem C3_counterexample :
    dep ⟨1, "group:artifact:jar:1.0".toList⟩ = none ∧
    runParser pom_tree "root\n+- group:artifact:jar:1.0".toList = none ∧
    parse_pom_tree (some "root\n+- group:artifact:jar:1.0".toList) = [] := by
  decide

/-- Claim C3 (amended): the coordinate extractor fails exactly when fewer than
four colon characters occur before the end of the line — each of the four
leading fields must be terminated by its own colon.  A five-segment coordinate
such as `group:artifact:jar:1.0:compile` is accepted, while a three-segment
one makes the whole parse fail and the public entry point return the empty
sequence. -/
theorem C3_amended_four_colons_required :
    (∀ (ln : Nat) (l : List Char), '\n' ∉ l →
      (dep ⟨ln, l⟩ = none ↔ l.count ':' < 4)) ∧
    runParser pom_tree "root\n+- group:artifact:jar:1.0:compile".toList
      = some [(2, Transitivity.direct, "artifact".toList, "1.0".toList)] ∧
    runParser pom_tree "root\n+- a:b:c".toList = none ∧
    parse_pom_tree (some "root\n+- a:b:c".toList) = [] :=
  ⟨dep_none_iff, by decide, by decide, by decide⟩

theorem C3_witness :
    dep ⟨1, "g:a:c".toList⟩ = none ↔ ("g:a:c".toList).count ':' < 4 :=
  C3_amended_four_colons_required.1 1 "g:a:c".toList (by decide)

/-- Claim C4: for every dependency line, depth is the greedy count of leading
indentation markers, the two marker spellings being interchangeable at every
position; the record is `Direct` exactly when depth is 0 and `Transitive`
exactly when depth is at least 1, and the branch-glyph shape has no effect on
the output. -/
theorem C4_depth_decides_transitivity (ln : Nat) (v : ValidLine)
    (r : List Char) (hr : r = [] ∨ ∃ rs, r = '\n' :: rs) :
    tree_line ⟨ln, renderLine v ++ r⟩
      = some ((ln, ((if 0 < v.markers.length then Transitivity.transitive
          else Transitivity.direct), v.f2, v.f4)), ⟨ln, r⟩) :=
  tree_line_eq ln v r hr

theorem C4_witness :
    tree_line ⟨5, renderLine sampleLine2 ++ []⟩
      = some ((5, (Transitivity.transitive, "b".toList, "d".toList)),
          ⟨5, []⟩) := by
  rw [C4_depth_decides_transitivity 5 sampleLine2 [] (Or.inl rfl)]
  decide

/-- Claim C5: for every well-formed document, the `line_number` of each
emitted record is the 1-based position of its originating line in the
document, counting the discarded root-label line as line 1: the records carry
line numbers 2, 3, …, and the `1 + i`-th entry of the document's line
decomposition is the dependency line the `i`-th record came from. -/
theorem C5_source_line_numbers (root : List Char) (ls : List ValidLine)
    (opt : List Char) (hroot : '\n' ∉ root) (hls : ls ≠ [])
    (hopt : opt = [] ∨ opt = ['\n']) :
    (parse_pom_tree (some (renderDoc root ls opt))).map
        (fun rcd => rcd.line_number)
      = List.range' 2 ls.length ∧
    splitLines (renderDoc root ls opt)
      = root :: (ls.map renderLine ++ opt.map (fun _ => ([] : List Char))) := by
  constructor
  · rw [parse_pom_tree_run root ls opt hroot hopt, List.map_map]
    exact expectedRecords_map_fst 2 ls
  · exact splitLines_doc root ls opt hroot hls hopt

theorem C5_witness :
    (parse_pom_tree (some (renderDoc "root".toList [sampleLine0] []))).map
        (fun rcd => rcd.line_number) = [2] ∧
    splitLines (renderDoc "root".toList [sampleLine0] [])
      = ["root".toList, renderLine sampleLine0] := by
  have h := C5_source_line_numbers "root".toList [sampleLine0] []
    (by decide) (by simp) (Or.inl rfl)
  exact ⟨by rw [h.1]; rfl, by rw [h.2]; rfl⟩

/-- Claim C6: for every well-formed document the number of emitted records
equals the number of non-root, non-blank lines; and a line that fails the
grammar aborts the whole parse, so no partial record list is produced. -/
theorem C6_count_and_atomicity :
    (∀ (root : List Char) (ls : List ValidLine) (opt : List Char),
      '\n' ∉ root → (opt = [] ∨ opt = ['\n']) →
      (parse_pom_tree (some (renderDoc root ls opt))).length
        = ((splitLines (renderDoc root ls opt)).drop 1).countP
            (fun l => !l.isEmpty)) ∧
    (∀ (root : List Char) (ls : List ValidLine) (b : List Char),
      '\n' ∉ root → b ≠ [] → (∀ m, tree_line ⟨m, b⟩ = none) →
      runParser pom_tree (root ++ '\n' :: (linesBody ls ++ '\n' :: b)) = none ∧
      parse_pom_tree (some (root ++ '\n' :: (linesBody ls ++ '\n' :: b)))
        = []) := by
  constructor
  · intro root ls opt hroot hopt
    rw [parse_pom_tree_run root ls opt hroot hopt, List.length_map,
      expectedRecords_length]
    cases ls with
    | nil =>
      have e : renderDoc root [] opt = root ++ '\n' :: opt := by
        simp [renderDoc, linesBody]
      rw [e, splitLines_append root opt hroot]
      rcases hopt with h | h <;> subst h <;> rfl
    | cons v vs =>
      rw [splitLines_doc root (v :: vs) opt hroot (by simp) hopt]
      have e : ((root :: (List.map renderLine (v :: vs)
          ++ opt.map (fun _ => ([] : List Char)))).drop 1)
          = List.map renderLine (v :: vs)
            ++ opt.map (fun _ => ([] : List Char)) := rfl
      rw [e, List.countP_append, countP_renderLines]
      rcases hopt with h | h <;> subst h <;> rfl
  · intro root ls b hroot hb htl
    have hfail := pom_tree_fail_badline root ls b hroot hb htl
    exact ⟨hfail, parse_pom_tree_of_fail _ hfail⟩

theorem C6_witness :
    (parse_pom_tree (some (renderDoc "root".toList [sampleLine2] []))).length
      = ((splitLines (renderDoc "root".toList [sampleLine2] [])).drop 1).countP
          (fun l => !l.isEmpty) :=
  C6_count_and_atomicity.1 "root".toList [sampleLine2] [] (by decide)
    (Or.inl rfl)

/-- Claim C7: for every well-formed document the output sequence is in
document order — the name/version pairs are those of the dependency lines in
the order they occur — and every emitted record has ecosystem `Maven` and
empty `allowed_hashes`. -/
theorem C7_order_and_constant_fields (root : List Char) (ls : List ValidLine)
    (opt : List Char) (hroot : '\n' ∉ root) (hopt : opt = [] ∨ opt = ['\n']) :
    (parse_pom_tree (some (renderDoc root ls opt))).map
        (fun rcd => (rcd.package, rcd.version))
      = ls.map (fun v => (v.f2, v.f4)) ∧
    ∀ rcd ∈ parse_pom_tree (some (renderDoc root ls opt)),
      rcd.ecosystem = Ecosystem.maven ∧ rcd.allowed_hashes = [] := by
  constructor
  · rw [parse_pom_tree_run root ls opt hroot hopt, List.map_map]
    exact expectedRecords_map_pv 2 ls
  · intro rcd hmem
    rw [parse_pom_tree_run root ls opt hroot hopt] at hmem
    obtain ⟨x, hx, rfl⟩ := List.mem_map.mp hmem
    exact ⟨rfl, rfl⟩

theorem C7_witness :
    (parse_pom_tree (some (renderDoc "p".toList [sampleLine0] ['\n']))).map
        (fun rcd => (rcd.package, rcd.version))
      = [sampleLine0].map (fun v => (v.f2, v.f4)) :=
  (C7_order_and_constant_fields "p".toList [sampleLine0] ['\n'] (by decide)
    (Or.inr rfl)).1

/-- Claim C8 counterexample: appending one extra newline to a well-formed
document that already ends in a trailing newline changes the result — the
parse fails and the entry point returns the empty sequence instead of the
record list. -/
theorem C8_counterexample :
    parse_pom_tree (some ("root\n+- a:b:c:d:e\n".toList ++ ['\n']))
      ≠ parse_pom_tree (some "root\n+- a:b:c:d:e\n".toList) := by
  decide

/-- Claim C8 (amended): for every well-formed document that does not already
end in a newline, appending a single trailing newline is permitted and
ignored — the parse yields exactly the same record sequence — and a blank
line is never itself classified as a dependency line. -/
theorem C8_amended_trailing_newline (root : List Char) (ls : List ValidLine)
    (hroot : '\n' ∉ root) :
    parse_pom_tree (some (renderDoc root ls [] ++ ['\n']))
      = parse_pom_tree (some (renderDoc root ls [])) ∧
    (∀ m, tree_line ⟨m, []⟩ = none) := by
  have e : renderDoc root ls [] ++ ['\n'] = renderDoc root ls ['\n'] := by
    simp [renderDoc, List.append_assoc]
  constructor
  · rw [e, parse_pom_tree_run root ls ['\n'] hroot (Or.inr rfl),
      parse_pom_tree_run root ls [] hroot (Or.inl rfl)]
  · exact fun m => tree_line_none_nil m

theorem C8_witness :
    parse_pom_tree (some (renderDoc "r".toList [sampleLine0] [] ++ ['\n']))
      = parse_pom_tree (some (renderDoc "r".toList [sampleLine0] [])) :=
  (C8_amended_trailing_newline "r".toList [sampleLine0] (by decide)).1

/-- Claim C9 counterexample: a document whose first (root) line is blank
parses successfully and produces a record, and a document of a bare root line
followed by two consecutive trailing newlines parses successfully with zero
records — in both cases the whole-document parse does not fail as claimed. -/
theorem C9_counterexample :
    parse_pom_tree (some "\n+- a:b:c:d:e\n".toList)
      = [{ package := "b".toList, version := "d".toList,
           ecosystem := Ecosystem.maven, allowed_hashes := [],
           transitivity := Transitivity.direct, line_number := 2 }] ∧
    runParser pom_tree "root\n\n".toList = some [] := by
  decide

/-- Claim C9 (amended): a blank line after the root line — other than a
single trailing newline — makes the whole parse fail and the entry point
return the empty sequence: this holds for a blank line following zero or more
well-formed dependency lines whatever text follows it, and for a document
that continues after a blank second line.  (The root label line itself may be
empty, and a bare root line followed by two newlines parses successfully with
zero records.) -/
theorem C9_amended_blank_lines_fail :
    (∀ (root : List Char) (ls : List ValidLine) (x : List Char), '\n' ∉ root →
      runParser pom_tree
          (root ++ '\n' :: (linesBody ls ++ '\n' :: '\n' :: x)) = none ∧
      parse_pom_tree
          (some (root ++ '\n' :: (linesBody ls ++ '\n' :: '\n' :: x))) = []) ∧
    (∀ (root x : List Char), '\n' ∉ root → x ≠ [] →
      runParser pom_tree (root ++ '\n' :: '\n' :: x) = none ∧
      parse_pom_tree (some (root ++ '\n' :: '\n' :: x)) = []) := by
  constructor
  · intro root ls x hroot
    have hfail := pom_tree_fail_blankline root ls x hroot
    exact ⟨hfail, parse_pom_tree_of_fail _ hfail⟩
  · intro root x hroot hx
    have hfail := pom_tree_fail_blank0 root x hroot hx
    exact ⟨hfail, parse_pom_tree_of_fail _ hfail⟩

theorem C9_witness :
    runParser pom_tree ("root".toList ++ '\n' :: '\n' :: "A".toList) = none ∧
    parse_pom_tree (some ("root".toList ++ '\n' :: '\n' :: "A".toList)) = [] :=
  C9_amended_blank_lines_fail.2 "root".toList "A".toList (by decide)
    (by decide)

/-- Claim C10: colon-delimited segments may be empty: a dependency line whose
coordinate is `::::` is accepted, producing a record whose name and version
are both the empty string. -/
theorem C10_empty_segments :
    parse_pom_tree (some "root\n+- ::::".toList)
      = [{ package := [], version := [], ecosystem := Ecosystem.maven,
           allowed_hashes := [], transitivity := Transitivity.direct,
           line_number := 2 }] := by
  decide
